import Mathlib

/-!
Verification of the LDPC encoder interface declared in
`lib/include/srslte/phy/fec/ldpc/ldpc_encoder.h`.

The repository slice under inspection ships only the public header
(`ldpc_encoder.h`): the enumeration of backend types
(`srslte_ldpc_encoder_type_t`), the handle structure
(`srslte_ldpc_encoder_t`) with its dimension fields and compact
parity-check-matrix pointer, and the four entry points
(`srslte_ldpc_encoder_init`, `srslte_ldpc_encoder_free`,
`srslte_ldpc_encoder_encode`, `srslte_ldpc_encoder_encode_rm`).
The encoder algorithm itself (base-graph catalog, lifted-matrix builder,
scalar and SIMD encoding cores) is modelled from the specification,
faithfully to its two-phase description: per-row accumulation of
cyclically shifted message blocks, a closed-form dual-diagonal solve for
the four core parity blocks, a direct sparse accumulation for the
extension parity blocks, a systematic output layout, and a circular
read-out for rate matching.
-/

/-- A lifted block: an infinite bit row; only indices below the lifting
size are meaningful, and all blocks produced by the encoder are periodic
with period the lifting size. -/
abbrev Blk := Nat → Bool

/-- The all-zero block. -/
def zeroB : Blk := fun _ => false

/-- Pointwise XOR (addition modulo 2) of two blocks. -/
def xorB (u v : Blk) : Blk := fun i => xor (u i) (v i)

/-- Cyclic shift of a block by `s` positions within a period of `ls`:
bit `i` of the result is bit `(i + s) % ls` of the argument.  This is the
action of an `ls`-by-`ls` circulant permutation block. -/
def shiftB (ls s : Nat) (v : Blk) : Blk := fun i => v ((i + s) % ls)

/-- A block is periodic with period `ls` when reading it modulo `ls`
changes nothing. -/
def PeriodicB (ls : Nat) (v : Blk) : Prop := ∀ i, v (i % ls) = v i

/-- XOR-accumulate the blocks `f j` for `j` ranging over `l`
(right fold, one column at a time: the scalar accumulation order). -/
def xorFold (l : List Nat) (f : Nat → Blk) : Blk :=
  l.foldr (fun j acc => xorB (f j) acc) zeroB

/-- XOR-accumulate with a left fold (the order used by the wide-register
accumulation loops). -/
def xorFoldl (l : List Nat) (f : Nat → Blk) : Blk :=
  l.foldl (fun acc j => xorB acc (f j)) zeroB

/-- XOR-accumulate a single bit lane across the columns of `l`. -/
def xorFoldBit (l : List Nat) (g : Nat → Bool) : Bool :=
  l.foldr (fun j b => xor (g j) b) false

/-- The two standardized base graphs (`srslte_basegraph_t`). -/
inductive srslte_basegraph_t
  | BG1
  | BG2
deriving DecidableEq

/-- The encoder backend types (`srslte_ldpc_encoder_type_t`):
non-optimized, AVX2-optimized, AVX512-optimized. -/
inductive srslte_ldpc_encoder_type_t
  | C
  | AVX2
  | AVX512
deriving DecidableEq

/-- Modelled from the spec: the error taxonomy of §7 (the C interface
collapses all of these to a `-1` return value). -/
inductive LdpcError
  | unsupportedLiftingSize
  | allocationFailure
  | invalidInputLength
  | invalidRateMatchLength
deriving DecidableEq

/-- Number of "uncoded bits" (message block-columns) in each base graph. -/
def BG_K : srslte_basegraph_t → Nat
  | .BG1 => 22
  | .BG2 => 10

/-- Number of check nodes (block-rows) in each base graph. -/
def BG_M : srslte_basegraph_t → Nat
  | .BG1 => 46
  | .BG2 => 42

/-- Number of variable nodes (block-columns) in each base graph. -/
def BG_N : srslte_basegraph_t → Nat
  | .BG1 => 68
  | .BG2 => 52

/-- Modelled from the spec: the 51 standardized lifting sizes, grouped by
the 8 lifting-size sets (a · 2^j for a ∈ {2,3,5,7,9,11,13,15}). -/
def SRSLTE_LDPC_LS : List Nat :=
  [2, 4, 8, 16, 32, 64, 128, 256,
   3, 6, 12, 24, 48, 96, 192, 384,
   5, 10, 20, 40, 80, 160, 320,
   7, 14, 28, 56, 112, 224,
   9, 18, 36, 72, 144, 288,
   11, 22, 44, 88, 176, 352,
   13, 26, 52, 104, 208,
   15, 30, 60, 120, 240]

/-- The LDPC encoder handle, mirroring `srslte_ldpc_encoder_t`: auxiliary
scratch registers (`ptr`), the construction-time backend binding, the
current base graph and lifting size, the base-graph and lifted dimensions,
and the compact parity-check matrix.  The compact PCM maps a
(block-row, block-column) pair to `none` (the −1 "no edge" sentinel) or to
a cyclic-shift value. -/
structure srslte_ldpc_encoder_t where
  ptr : List Bool
  type : srslte_ldpc_encoder_type_t
  bg : srslte_basegraph_t
  ls : Nat
  bgN : Nat
  liftN : Nat
  bgM : Nat
  liftM : Nat
  bgK : Nat
  liftK : Nat
  pcm : Nat → Nat → Option Nat

/-- A base-graph shift catalog: for a base graph and a lifting size, the
base shift value registered for that lifting size's set at a given
(block-row, block-column), or `none` for "no edge".  Modelled from the
spec: the concrete standardized tables are deliberately not restated. -/
abbrev BgCatalog := srslte_basegraph_t → Nat → Nat → Nat → Option Nat

/-- Modelled from the spec: `srslte_ldpc_encoder_init` / the
lifted-matrix builder.  Validates the lifting size against the
standardized set, derives the lifted dimensions (stored into the
header's `uint8_t` / `uint16_t` fields, hence the explicit reductions
modulo 2^8 and 2^16), and lifts every base shift value modulo `ls`,
preserving the "no edge" sentinel. -/
def initHandle (cat : BgCatalog) (type : srslte_ldpc_encoder_type_t)
    (bg : srslte_basegraph_t) (ls : Nat) : srslte_ldpc_encoder_t :=
  { ptr := List.replicate ((BG_M bg * ls) % 65536) false
    type := type
    bg := bg
    ls := ls
    bgN := BG_N bg % 256
    liftN := (BG_N bg * ls) % 65536
    bgM := BG_M bg % 256
    liftM := (BG_M bg * ls) % 65536
    bgK := BG_K bg % 256
    liftK := (BG_K bg * ls) % 65536
    pcm := fun m j => (cat bg ls m j).map (fun v => v % ls) }

def srslte_ldpc_encoder_init (cat : BgCatalog) (type : srslte_ldpc_encoder_type_t)
    (bg : srslte_basegraph_t) (ls : Nat) : Except LdpcError srslte_ldpc_encoder_t :=
  if SRSLTE_LDPC_LS.contains ls then .ok (initHandle cat type bg ls)
  else .error .unsupportedLiftingSize

/-- The message block-columns of an input bit buffer: block `j`, lane `i`
is input bit `j·ls + i % ls` (reading past the buffer yields the fixed
filler value `false`). -/
def msgB (q : srslte_ldpc_encoder_t) (input : List Bool) : Nat → Blk :=
  fun j i => input.getD (j * q.ls + i % q.ls) false

/-- The contribution of block-column `j` to check block-row `m`: the
all-zero block on a "no edge" entry, otherwise the block cyclically
shifted by the registered shift value. -/
def pcmContrib (q : srslte_ldpc_encoder_t) (m j : Nat) (v : Blk) : Blk :=
  match q.pcm m j with
  | none => zeroB
  | some s => shiftB q.ls s v

/-- Phase-1 step 1 (scalar backend): the per-check-row accumulator, the
XOR-sum of the shifted contributions of the message block-columns only. -/
def auxRow (q : srslte_ldpc_encoder_t) (inB : Nat → Blk) (m : Nat) : Blk :=
  xorFold (List.range q.bgK) (fun j => pcmContrib q m j (inB j))

/-- Per-row accumulator, AVX2-style backend: same contributions, wide
left-fold accumulation order. -/
def auxRowAvx2 (q : srslte_ldpc_encoder_t) (inB : Nat → Blk) (m : Nat) : Blk :=
  xorFoldl (List.range q.bgK) (fun j => pcmContrib q m j (inB j))

/-- Per-row accumulator, AVX512-style backend: lane-at-a-time
accumulation across the message block-columns. -/
def auxRowAvx512 (q : srslte_ldpc_encoder_t) (inB : Nat → Blk) (m : Nat) : Blk :=
  fun i => xorFoldBit (List.range q.bgK) (fun j => pcmContrib q m j (inB j) i)

/-- The structural shift of the dual-diagonal core: the lifted shift
value registered at block-row 0, first parity block-column. -/
def coreShift (q : srslte_ldpc_encoder_t) : Nat := (q.pcm 0 q.bgK).getD 0

/-- Phase-1 step 2, first half: the XOR of the first four row
accumulators (the "parity seed" before the corrective cyclic shift). -/
def sumAux (acc : Nat → Blk) : Blk :=
  xorB (acc 0) (xorB (acc 1) (xorB (acc 2) (acc 3)))

/-- Phase-1 step 2: the first core parity block `p0`, the parity seed
cyclically shifted back by the structural shift of the dual-diagonal
pattern (the "one cyclic shift" of the closed-form fold). -/
def par0 (q : srslte_ldpc_encoder_t) (acc : Nat → Blk) : Blk :=
  shiftB q.ls (q.ls - coreShift q) (sumAux acc)

/-- Phase-1 step 3: `p1` from row 0's equation: the XOR of row
accumulator 0 with the shifted `p0`. -/
def par1 (q : srslte_ldpc_encoder_t) (acc : Nat → Blk) : Blk :=
  xorB (acc 0) (shiftB q.ls (coreShift q) (par0 q acc))

/-- Phase-1 step 3: `p2` from row 1's equation: the XOR of `p0`, `p1`
and row accumulator 1. -/
def par2 (q : srslte_ldpc_encoder_t) (acc : Nat → Blk) : Blk :=
  xorB (xorB (par0 q acc) (par1 q acc)) (acc 1)

/-- Phase-1 step 3: `p3` from row 2's equation: the XOR of `p2` with row
accumulator 2. -/
def par3 (q : srslte_ldpc_encoder_t) (acc : Nat → Blk) : Blk :=
  xorB (par2 q acc) (acc 2)

/-- The four core parity block-columns, indexed 0..3. -/
def coreBlk (q : srslte_ldpc_encoder_t) (acc : Nat → Blk) : Nat → Blk
  | 0 => par0 q acc
  | 1 => par1 q acc
  | 2 => par2 q acc
  | _ => par3 q acc

/-- Phase 2 (scalar backend): extension parity block `t` (check block-row
`t + 4`): the XOR of that row's accumulator with the shifted
contributions of the four core parity block-columns that participate in
the row per the compact PCM. -/
def extPar (q : srslte_ldpc_encoder_t) (acc : Nat → Blk) (t : Nat) : Blk :=
  xorB (acc (t + 4))
    (xorFold (List.range 4) (fun k => pcmContrib q (t + 4) (q.bgK + k) (coreBlk q acc k)))

/-- Phase 2, AVX2-style backend: left-fold accumulation order. -/
def extParAvx2 (q : srslte_ldpc_encoder_t) (acc : Nat → Blk) (t : Nat) : Blk :=
  xorB (acc (t + 4))
    (xorFoldl (List.range 4) (fun k => pcmContrib q (t + 4) (q.bgK + k) (coreBlk q acc k)))

/-- Phase 2, AVX512-style backend: lane-at-a-time accumulation. -/
def extParAvx512 (q : srslte_ldpc_encoder_t) (acc : Nat → Blk) (t : Nat) : Blk :=
  fun i => xor (acc (t + 4) i)
    (xorFoldBit (List.range 4) (fun k => pcmContrib q (t + 4) (q.bgK + k) (coreBlk q acc k) i))

/-- The full codeword as a map from block-column index to block: message
block-columns, then the four core parity blocks, then the extension
parity blocks. -/
def encodeBlocksW (q : srslte_ldpc_encoder_t) (inB : Nat → Blk) (acc : Nat → Blk)
    (ext : Nat → Blk) : Nat → Blk :=
  fun j =>
    if j < q.bgK then inB j
    else if j < q.bgK + 4 then coreBlk q acc (j - q.bgK)
    else ext (j - (q.bgK + 4))

/-- Serialize a block map into the output bit buffer: bit `n` of the
codeword is lane `n % ls` of block `n / ls`, for `n < liftN`. -/
def cwList (q : srslte_ldpc_encoder_t) (blocks : Nat → Blk) : List Bool :=
  (List.range q.liftN).map (fun n => blocks (n / q.ls) (n % q.ls))

/-- The scalar (non-optimized) encoding pipeline. -/
def ldpc_enc_c (q : srslte_ldpc_encoder_t) (input : List Bool) : List Bool :=
  cwList q (encodeBlocksW q (msgB q input) (auxRow q (msgB q input))
    (extPar q (auxRow q (msgB q input))))

/-- The AVX2-style encoding pipeline. -/
def ldpc_enc_avx2 (q : srslte_ldpc_encoder_t) (input : List Bool) : List Bool :=
  cwList q (encodeBlocksW q (msgB q input) (auxRowAvx2 q (msgB q input))
    (extParAvx2 q (auxRowAvx2 q (msgB q input))))

/-- The AVX512-style encoding pipeline. -/
def ldpc_enc_avx512 (q : srslte_ldpc_encoder_t) (input : List Bool) : List Bool :=
  cwList q (encodeBlocksW q (msgB q input) (auxRowAvx512 q (msgB q input))
    (extParAvx512 q (auxRowAvx512 q (msgB q input))))

/-- Backend dispatch through the handle's construction-time binding (the
header's stored `encode` function pointer). -/
def ldpc_enc_impl (q : srslte_ldpc_encoder_t) (input : List Bool) : List Bool :=
  match q.type with
  | .C => ldpc_enc_c q input
  | .AVX2 => ldpc_enc_avx2 q input
  | .AVX512 => ldpc_enc_avx512 q input

/-- The scratch contents after an encode call: the handle's auxiliary
registers hold the per-row accumulators of the systematic bits. -/
def scratchOf (q : srslte_ldpc_encoder_t) (input : List Bool) : List Bool :=
  (List.range q.liftM).map (fun t => auxRow q (msgB q input) (t / q.ls) (t % q.ls))

/-- Modelled from the spec: `srslte_ldpc_encoder_encode`, with the
handle state threaded explicitly.  An input length different from
`liftK` is rejected with `InvalidInputLength` and nothing is produced;
on success the handle is returned with only its private scratch
registers rewritten, together with the complete codeword. -/
def srslte_ldpc_encoder_encode_st (q : srslte_ldpc_encoder_t) (input : List Bool)
    (input_length : Nat) : Except LdpcError (srslte_ldpc_encoder_t × List Bool) :=
  if input_length = q.liftK then
    .ok ({ q with ptr := scratchOf q input }, ldpc_enc_impl q input)
  else .error .invalidInputLength

/-- `srslte_ldpc_encoder_encode`, output only. -/
def srslte_ldpc_encoder_encode (q : srslte_ldpc_encoder_t) (input : List Bool)
    (input_length : Nat) : Except LdpcError (List Bool) :=
  (srslte_ldpc_encoder_encode_st q input input_length).map Prod.snd

/-- The standardized circular read-out: emit `n` bits of `cw` starting
at position `pos`, wrapping to bit 0 after reaching the last bit. -/
def circRead (cw : List Bool) : Nat → Nat → List Bool
  | _, 0 => []
  | pos, Nat.succ n =>
      cw.getD pos false :: circRead cw (if pos + 1 = cw.length then 0 else pos + 1) n

/-- Modelled from the spec: `srslte_ldpc_encoder_encode_rm`, with the
handle state threaded explicitly.  A zero rate-matched length is
rejected with `InvalidRateMatchLength`; otherwise the full codeword is
computed and read out circularly from bit offset `2·ls` (the punctured
systematic bits are skipped). -/
def srslte_ldpc_encoder_encode_rm_st (q : srslte_ldpc_encoder_t) (input : List Bool)
    (input_length cdwd_rm_length : Nat) :
    Except LdpcError (srslte_ldpc_encoder_t × List Bool) :=
  if cdwd_rm_length = 0 then .error .invalidRateMatchLength
  else
    (srslte_ldpc_encoder_encode_st q input input_length).map
      (fun r => (r.1, circRead r.2 (2 * q.ls) cdwd_rm_length))

/-- `srslte_ldpc_encoder_encode_rm`, output only. -/
def srslte_ldpc_encoder_encode_rm (q : srslte_ldpc_encoder_t) (input : List Bool)
    (input_length cdwd_rm_length : Nat) : Except LdpcError (List Bool) :=
  (srslte_ldpc_encoder_encode_rm_st q input input_length cdwd_rm_length).map Prod.snd

/-- The C return-value convention declared in the header: an integer, 0
if the function executes correctly, −1 otherwise. -/
def ret_of {α : Type} : Except LdpcError α → Int
  | .ok _ => 0
  | .error _ => -1

/-- `srslte_ldpc_encoder_init` at the C boundary: the integer return
value together with the handle state (`q0` is the prior, uninitialized
state of the caller's handle, left untouched on failure). -/
def srslte_ldpc_encoder_init_c_api (cat : BgCatalog) (q0 : Option srslte_ldpc_encoder_t)
    (type : srslte_ldpc_encoder_type_t) (bg : srslte_basegraph_t) (ls : Nat) :
    Int × Option srslte_ldpc_encoder_t :=
  match srslte_ldpc_encoder_init cat type bg ls with
  | .ok q => (0, some q)
  | .error _ => (-1, q0)

/-- `srslte_ldpc_encoder_encode` at the C boundary: the integer return
value together with the produced codeword, if any. -/
def srslte_ldpc_encoder_encode_c_api (q : srslte_ldpc_encoder_t) (input : List Bool)
    (input_length : Nat) : Int × Option (List Bool) :=
  match srslte_ldpc_encoder_encode q input input_length with
  | .ok out => (0, some out)
  | .error _ => (-1, none)

/-- `srslte_ldpc_encoder_encode_rm` at the C boundary. -/
def srslte_ldpc_encoder_encode_rm_c_api (q : srslte_ldpc_encoder_t) (input : List Bool)
    (input_length cdwd_rm_length : Nat) : Int × Option (List Bool) :=
  match srslte_ldpc_encoder_encode_rm q input input_length cdwd_rm_length with
  | .ok out => (0, some out)
  | .error _ => (-1, none)

/-- The lifted parity-check equation of check block-row `m` against a
codeword block map: the XOR-sum over all block-columns of their shifted
contributions per the compact PCM. -/
def checkRow (q : srslte_ldpc_encoder_t) (cwB : Nat → Blk) (m : Nat) : Blk :=
  xorFold (List.range q.bgN) (fun j => pcmContrib q m j (cwB j))

/-- Validity of a built encoder configuration, modelled from the spec:
the lifting size is standardized and positive, the dimensions are those
of the chosen base graph with `bgN = bgK + bgM` and the lifted
dimensions obtained by multiplying by `ls`, every registered shift is
reduced below `ls`, the four core parity block-columns form the
standardized dual-diagonal pattern (solvable in closed form), the core
check rows touch no extension parity block-column, and the extension
region places exactly one identity (shift-0) entry per extension row on
its own parity block-column. -/
structure ValidConfig (q : srslte_ldpc_encoder_t) : Prop where
  ls_pos : 0 < q.ls
  ls_std : q.ls ∈ SRSLTE_LDPC_LS
  dims1 : q.bg = .BG1 → q.bgK = 22 ∧ q.bgM = 46 ∧ q.bgN = 68
  dims2 : q.bg = .BG2 → q.bgK = 10 ∧ q.bgM = 42 ∧ q.bgN = 52
  hN : q.bgN = q.bgK + q.bgM
  hliftK : q.liftK = q.bgK * q.ls
  hliftM : q.liftM = q.bgM * q.ls
  hliftN : q.liftN = q.bgN * q.ls
  shift_lt : ∀ m < q.bgM, ∀ j < q.bgN, (q.pcm m j).getD 0 < q.ls
  c00 : q.pcm 0 q.bgK = some (coreShift q)
  c01 : q.pcm 0 (q.bgK + 1) = some 0
  c02 : q.pcm 0 (q.bgK + 2) = none
  c03 : q.pcm 0 (q.bgK + 3) = none
  c10 : q.pcm 1 q.bgK = some 0
  c11 : q.pcm 1 (q.bgK + 1) = some 0
  c12 : q.pcm 1 (q.bgK + 2) = some 0
  c13 : q.pcm 1 (q.bgK + 3) = none
  c20 : q.pcm 2 q.bgK = none
  c21 : q.pcm 2 (q.bgK + 1) = none
  c22 : q.pcm 2 (q.bgK + 2) = some 0
  c23 : q.pcm 2 (q.bgK + 3) = some 0
  c30 : q.pcm 3 q.bgK = some 0
  c31 : q.pcm 3 (q.bgK + 1) = none
  c32 : q.pcm 3 (q.bgK + 2) = none
  c33 : q.pcm 3 (q.bgK + 3) = some 0
  ext_top : ∀ m < 4, ∀ k < q.bgM, 4 ≤ k → q.pcm m (q.bgK + k) = none
  ext_diag : ∀ m < q.bgM, 4 ≤ m → q.pcm m (q.bgK + m) = some 0
  ext_off : ∀ m < q.bgM, ∀ k < q.bgM, (4 ≤ m ∧ 4 ≤ k ∧ k ≠ m) → q.pcm m (q.bgK + k) = none

/-- A concrete shift catalog used to exercise the development: BG2 with
the dual-diagonal core pattern (structural shift 1 at block-row 0), the
identity extension diagonal, and a sparse message region. -/
def testCat : BgCatalog := fun bg _ m j =>
  match bg with
  | .BG1 => none
  | .BG2 =>
      if j < 10 ∧ (m + j) % 3 = 0 then some (m * 7 + j)
      else if m = 0 ∧ j = 10 then some 1
      else if m = 0 ∧ j = 11 then some 0
      else if m = 1 ∧ (j = 10 ∨ j = 11 ∨ j = 12) then some 0
      else if m = 2 ∧ (j = 12 ∨ j = 13) then some 0
      else if m = 3 ∧ (j = 10 ∨ j = 13) then some 0
      else if 4 ≤ m ∧ m < 42 ∧ j = m + 10 then some 0
      else none

/-- The handle built by a successful `init` on the concrete catalog
(BG2, lifting size 2, scalar backend). -/
def testQ : srslte_ldpc_encoder_t := initHandle testCat .C .BG2 2

/-- A concrete 20-bit message (liftK bits for BG2 with lifting size 2). -/
def testInput : List Bool :=
  [true, false, true, true, false, false, true, false, true, true,
   false, true, false, false, true, true, true, false, false, true]

theorem ValidConfig.dims (hv : ValidConfig q) :
    (q.bgK = 22 ∧ q.bgM = 46 ∧ q.bgN = 68) ∨ (q.bgK = 10 ∧ q.bgM = 42 ∧ q.bgN = 52) := by
  cases h : q.bg with
  | BG1 => exact Or.inl (hv.dims1 h)
  | BG2 => exact Or.inr (hv.dims2 h)

theorem ValidConfig.bgM_ge4 (hv : ValidConfig q) : 4 ≤ q.bgM := by
  rcases hv.dims with ⟨-, h, -⟩ | ⟨-, h, -⟩ <;> omega

theorem ValidConfig.bgK_pos (hv : ValidConfig q) : 0 < q.bgK := by
  rcases hv.dims with ⟨h, -, -⟩ | ⟨h, -, -⟩ <;> omega

theorem ValidConfig.coreShift_lt (hv : ValidConfig q) : coreShift q < q.ls := by
  have h4 := hv.bgM_ge4
  have hN := hv.hN
  exact hv.shift_lt 0 (by omega) q.bgK (by omega)

theorem xorB_assoc (u v w : Blk) : xorB (xorB u v) w = xorB u (xorB v w) := by
  funext i; simp [xorB, Bool.xor_assoc]

theorem xorB_comm (u v : Blk) : xorB u v = xorB v u := by
  funext i; simp [xorB, Bool.xor_comm]

theorem xorB_zeroB (v : Blk) : xorB zeroB v = v := by
  funext i; simp [xorB, zeroB]

theorem xorB_zeroB_right (v : Blk) : xorB v zeroB = v := by
  funext i; simp [xorB, zeroB]

theorem xorB_self (v : Blk) : xorB v v = zeroB := by
  funext i; simp [xorB, zeroB]

theorem xorFold_congr {l : List Nat} {f g : Nat → Blk} (h : ∀ j ∈ l, f j = g j) :
    xorFold l f = xorFold l g := by
  induction l with
  | nil => rfl
  | cons a t ih =>
      simp only [xorFold, List.foldr_cons] at *
      rw [h a (by simp), ih (fun j hj => h j (by simp [hj]))]

theorem xorFold_congr_at {l : List Nat} {f g : Nat → Blk} {i : Nat}
    (h : ∀ j ∈ l, f j i = g j i) : xorFold l f i = xorFold l g i := by
  induction l with
  | nil => rfl
  | cons a t ih =>
      simp only [xorFold, List.foldr_cons] at *
      simp only [xorB]
      rw [h a (by simp), ih (fun j hj => h j (by simp [hj]))]

theorem xorFold_eq_zeroB {l : List Nat} {f : Nat → Blk} (h : ∀ j ∈ l, f j = zeroB) :
    xorFold l f = zeroB := by
  induction l with
  | nil => rfl
  | cons a t ih =>
      simp only [xorFold, List.foldr_cons] at *
      rw [h a (by simp), ih (fun j hj => h j (by simp [hj])), xorB_zeroB]

theorem xorFold_acc (l : List Nat) (f : Nat → Blk) (x : Blk) :
    l.foldr (fun j acc => xorB (f j) acc) x = xorB (xorFold l f) x := by
  induction l with
  | nil => simp [xorFold, xorB_zeroB]
  | cons a t ih =>
      simp only [xorFold, List.foldr_cons] at *
      rw [ih, xorB_assoc]

theorem xorFold_append (l1 l2 : List Nat) (f : Nat → Blk) :
    xorFold (l1 ++ l2) f = xorB (xorFold l1 f) (xorFold l2 f) := by
  simp only [xorFold, List.foldr_append]
  exact xorFold_acc l1 f _

theorem xorFold_map (l : List Nat) (g : Nat → Nat) (f : Nat → Blk) :
    xorFold (l.map g) f = xorFold l (fun j => f (g j)) := by
  induction l with
  | nil => rfl
  | cons a t ih => simp only [xorFold, List.map_cons, List.foldr_cons] at *; rw [ih]

theorem xorFold_single {n t : Nat} {f : Nat → Blk} (ht : t < n)
    (h : ∀ k < n, k ≠ t → f k = zeroB) : xorFold (List.range n) f = f t := by
  have hsplit : n = (t + 1) + (n - (t + 1)) := by omega
  rw [hsplit, List.range_add, xorFold_append, List.range_succ, xorFold_append]
  rw [xorFold_eq_zeroB (l := List.range t) (fun j hj => h j (by simp at hj; omega)
    (by simp at hj; omega))]
  rw [xorFold_map, xorFold_eq_zeroB (fun j hj => h (t + 1 + j) (by simp at hj; omega)
    (by omega))]
  rw [xorB_zeroB_right, xorB_zeroB]
  simp [xorFold, xorB_zeroB_right]

theorem periodicB_zeroB (ls : Nat) : PeriodicB ls zeroB := fun _ => rfl

theorem periodicB_xorB {ls : Nat} {u v : Blk} (hu : PeriodicB ls u) (hv : PeriodicB ls v) :
    PeriodicB ls (xorB u v) := by
  intro i; simp only [xorB, hu i, hv i]

theorem periodicB_shiftB (ls s : Nat) (v : Blk) : PeriodicB ls (shiftB ls s v) := by
  intro i; simp only [shiftB, Nat.mod_add_mod]

theorem periodicB_xorFold {ls : Nat} {l : List Nat} {f : Nat → Blk}
    (h : ∀ j ∈ l, PeriodicB ls (f j)) : PeriodicB ls (xorFold l f) := by
  induction l with
  | nil => exact periodicB_zeroB ls
  | cons a t ih =>
      simp only [xorFold, List.foldr_cons]
      exact periodicB_xorB (h a (by simp)) (ih (fun j hj => h j (by simp [hj])))

theorem shiftB_shiftB (ls a b : Nat) (v : Blk) :
    shiftB ls a (shiftB ls b v) = shiftB ls (a + b) v := by
  funext i
  simp only [shiftB, Nat.mod_add_mod, Nat.add_assoc]

theorem shiftB_zero_of_periodic {ls : Nat} {v : Blk} (hv : PeriodicB ls v) :
    shiftB ls 0 v = v := by
  funext i
  simp only [shiftB, Nat.add_zero]
  exact hv i

theorem shiftB_full_of_periodic {ls s : Nat} {v : Blk} (hs : s ≤ ls) (hv : PeriodicB ls v) :
    shiftB ls s (shiftB ls (ls - s) v) = v := by
  rw [shiftB_shiftB]
  have hls : s + (ls - s) = ls := by omega
  rw [hls]
  funext i
  simp only [shiftB, Nat.add_mod_right]
  exact hv i

theorem pcmContrib_periodic (q : srslte_ldpc_encoder_t) (m j : Nat) (v : Blk) :
    PeriodicB q.ls (pcmContrib q m j v) := by
  unfold pcmContrib
  cases q.pcm m j with
  | none => exact periodicB_zeroB q.ls
  | some s => exact periodicB_shiftB q.ls s v

theorem auxRow_periodic (q : srslte_ldpc_encoder_t) (inB : Nat → Blk) (m : Nat) :
    PeriodicB q.ls (auxRow q inB m) :=
  periodicB_xorFold (fun j _ => pcmContrib_periodic q m j (inB j))

theorem sumAux_periodic {q : srslte_ldpc_encoder_t} {acc : Nat → Blk}
    (hacc : ∀ n, PeriodicB q.ls (acc n)) : PeriodicB q.ls (sumAux acc) :=
  periodicB_xorB (hacc 0) (periodicB_xorB (hacc 1) (periodicB_xorB (hacc 2) (hacc 3)))

theorem par0_periodic (q : srslte_ldpc_encoder_t) (acc : Nat → Blk) :
    PeriodicB q.ls (par0 q acc) := periodicB_shiftB _ _ _

theorem par1_periodic {q : srslte_ldpc_encoder_t} {acc : Nat → Blk}
    (hacc : ∀ n, PeriodicB q.ls (acc n)) : PeriodicB q.ls (par1 q acc) :=
  periodicB_xorB (hacc 0) (periodicB_shiftB _ _ _)

theorem par2_periodic {q : srslte_ldpc_encoder_t} {acc : Nat → Blk}
    (hacc : ∀ n, PeriodicB q.ls (acc n)) : PeriodicB q.ls (par2 q acc) :=
  periodicB_xorB (periodicB_xorB (par0_periodic q acc) (par1_periodic hacc)) (hacc 1)

theorem par3_periodic {q : srslte_ldpc_encoder_t} {acc : Nat → Blk}
    (hacc : ∀ n, PeriodicB q.ls (acc n)) : PeriodicB q.ls (par3 q acc) :=
  periodicB_xorB (par2_periodic hacc) (hacc 2)

theorem coreBlk_periodic {q : srslte_ldpc_encoder_t} {acc : Nat → Blk}
    (hacc : ∀ n, PeriodicB q.ls (acc n)) (k : Nat) : PeriodicB q.ls (coreBlk q acc k) := by
  match k with
  | 0 => exact par0_periodic q acc
  | 1 => exact par1_periodic hacc
  | 2 => exact par2_periodic hacc
  | (n + 3) => exact par3_periodic hacc

theorem extPar_periodic {q : srslte_ldpc_encoder_t} {acc : Nat → Blk}
    (hacc : ∀ n, PeriodicB q.ls (acc n)) (t : Nat) : PeriodicB q.ls (extPar q acc t) :=
  periodicB_xorB (hacc (t + 4))
    (periodicB_xorFold (fun k _ => pcmContrib_periodic q (t + 4) (q.bgK + k) (coreBlk q acc k)))

/-- The defining property of `p0`: shifting it by the structural shift of
the dual-diagonal pattern recovers the parity seed (the XOR of the first
four row accumulators). -/
theorem shiftB_coreShift_par0 {q : srslte_ldpc_encoder_t} {acc : Nat → Blk}
    (hs : coreShift q ≤ q.ls) (hacc : ∀ n, PeriodicB q.ls (acc n)) :
    shiftB q.ls (coreShift q) (par0 q acc) = sumAux acc :=
  shiftB_full_of_periodic hs (sumAux_periodic hacc)

theorem coreBlk_zero (q : srslte_ldpc_encoder_t) (acc : Nat → Blk) :
    coreBlk q acc 0 = par0 q acc := rfl

theorem coreBlk_one (q : srslte_ldpc_encoder_t) (acc : Nat → Blk) :
    coreBlk q acc 1 = par1 q acc := rfl

theorem coreBlk_two (q : srslte_ldpc_encoder_t) (acc : Nat → Blk) :
    coreBlk q acc 2 = par2 q acc := rfl

theorem coreBlk_three (q : srslte_ldpc_encoder_t) (acc : Nat → Blk) :
    coreBlk q acc 3 = par3 q acc := rfl

theorem encodeBlocksW_msg {q : srslte_ldpc_encoder_t} {inB acc ext : Nat → Blk} {j : Nat}
    (hj : j < q.bgK) : encodeBlocksW q inB acc ext j = inB j := by
  simp [encodeBlocksW, hj]

theorem encodeBlocksW_core {q : srslte_ldpc_encoder_t} {inB acc ext : Nat → Blk} {k : Nat}
    (hk : k < 4) : encodeBlocksW q inB acc ext (q.bgK + k) = coreBlk q acc k := by
  have h1 : ¬ (q.bgK + k < q.bgK) := by omega
  have h2 : q.bgK + k < q.bgK + 4 := by omega
  simp only [encodeBlocksW, if_neg h1, if_pos h2, Nat.add_sub_cancel_left]

theorem encodeBlocksW_ext {q : srslte_ldpc_encoder_t} {inB acc ext : Nat → Blk} {k : Nat}
    (hk : 4 ≤ k) : encodeBlocksW q inB acc ext (q.bgK + k) = ext (k - 4) := by
  have h1 : ¬ (q.bgK + k < q.bgK) := by omega
  have h2 : ¬ (q.bgK + k < q.bgK + 4) := by omega
  simp only [encodeBlocksW, if_neg h1, if_neg h2]
  have h3 : q.bgK + k - (q.bgK + 4) = k - 4 := by omega
  rw [h3]

/-- Splitting a lifted parity-check row over the systematic and parity
block-columns: the message part is exactly the row accumulator. -/
theorem checkRow_split (q : srslte_ldpc_encoder_t) (hv : ValidConfig q)
    (inB acc ext : Nat → Blk) (m : Nat) :
    checkRow q (encodeBlocksW q inB acc ext) m
      = xorB (auxRow q inB m)
          (xorFold (List.range q.bgM) (fun k =>
            pcmContrib q m (q.bgK + k) (encodeBlocksW q inB acc ext (q.bgK + k)))) := by
  unfold checkRow
  rw [hv.hN, List.range_add, xorFold_append, xorFold_map]
  have hmsg : (xorFold (List.range q.bgK) fun j =>
      pcmContrib q m j (encodeBlocksW q inB acc ext j)) = auxRow q inB m := by
    unfold auxRow
    exact xorFold_congr (fun j hj => by rw [encodeBlocksW_msg (by simpa using hj)])
  rw [hmsg]

/-- For a core check row, only the four core parity block-columns
contribute to the parity part. -/
theorem parityFold_core (q : srslte_ldpc_encoder_t) (hv : ValidConfig q)
    (inB acc ext : Nat → Blk) (m : Nat) (hm : m < 4) :
    xorFold (List.range q.bgM) (fun k =>
        pcmContrib q m (q.bgK + k) (encodeBlocksW q inB acc ext (q.bgK + k)))
      = xorB (pcmContrib q m q.bgK (coreBlk q acc 0))
         (xorB (pcmContrib q m (q.bgK + 1) (coreBlk q acc 1))
          (xorB (pcmContrib q m (q.bgK + 2) (coreBlk q acc 2))
           (xorB (pcmContrib q m (q.bgK + 3) (coreBlk q acc 3)) zeroB))) := by
  have hM : q.bgM = 4 + (q.bgM - 4) := by have := hv.bgM_ge4; omega
  rw [hM, List.range_add, xorFold_append, xorFold_map]
  rw [xorFold_eq_zeroB (l := List.range (q.bgM - 4)) (fun t ht => by
    have ht' : t < q.bgM - 4 := by simpa using ht
    have hnone : q.pcm m (q.bgK + (4 + t)) = none :=
      hv.ext_top m hm (4 + t) (by omega) (by omega)
    simp [pcmContrib, hnone])]
  rw [xorB_zeroB_right]
  have h4 : List.range 4 = [0, 1, 2, 3] := rfl
  rw [h4]
  have e0 := @encodeBlocksW_core q inB acc ext 0 (by omega)
  have e1 := @encodeBlocksW_core q inB acc ext 1 (by omega)
  have e2 := @encodeBlocksW_core q inB acc ext 2 (by omega)
  have e3 := @encodeBlocksW_core q inB acc ext 3 (by omega)
  simp only [xorFold, List.foldr_cons, List.foldr_nil]
  rw [e0, e1, e2, e3]
  simp only [Nat.add_zero]

/-- For an extension check row, the parity part reduces to the row's
core-parity contributions XORed with the row's own extension parity
block (the single identity entry of the extension diagonal). -/
theorem parityFold_ext (q : srslte_ldpc_encoder_t) (hv : ValidConfig q)
    (inB acc : Nat → Blk) (hacc : ∀ n, PeriodicB q.ls (acc n)) (m : Nat)
    (hm4 : 4 ≤ m) (hm : m < q.bgM) :
    xorFold (List.range q.bgM) (fun k =>
        pcmContrib q m (q.bgK + k) (encodeBlocksW q inB acc (extPar q acc) (q.bgK + k)))
      = xorB (xorFold (List.range 4) (fun k => pcmContrib q m (q.bgK + k) (coreBlk q acc k)))
          (extPar q acc (m - 4)) := by
  have hM : q.bgM = 4 + (q.bgM - 4) := by have := hv.bgM_ge4; omega
  rw [hM, List.range_add, xorFold_append, xorFold_map]
  have hcore : (xorFold (List.range 4) fun k =>
      pcmContrib q m (q.bgK + k) (encodeBlocksW q inB acc (extPar q acc) (q.bgK + k)))
      = xorFold (List.range 4) (fun k => pcmContrib q m (q.bgK + k) (coreBlk q acc k)) :=
    xorFold_congr (fun k hk => by rw [encodeBlocksW_core (by simpa using hk)])
  have hrw : ∀ t, encodeBlocksW q inB acc (extPar q acc) (q.bgK + (4 + t))
      = extPar q acc t := by
    intro t
    rw [encodeBlocksW_ext (by omega)]
    have ht4 : 4 + t - 4 = t := by omega
    rw [ht4]
  have hrest : (xorFold (List.range (q.bgM - 4)) fun t =>
      pcmContrib q m (q.bgK + (4 + t)) (encodeBlocksW q inB acc (extPar q acc) (q.bgK + (4 + t))))
      = extPar q acc (m - 4) := by
    rw [xorFold_congr (fun t ht => by rw [hrw t])]
    rw [xorFold_single (t := m - 4) (by omega) (fun t ht hne => by
      have hnone : q.pcm m (q.bgK + (4 + t)) = none :=
        hv.ext_off m hm (4 + t) (by omega) ⟨hm4, by omega, by omega⟩
      simp [pcmContrib, hnone])]
    have h44 : 4 + (m - 4) = m := by omega
    rw [h44]
    have hdiag : q.pcm m (q.bgK + m) = some 0 := hv.ext_diag m hm hm4
    simp only [pcmContrib, hdiag]
    exact shiftB_zero_of_periodic (extPar_periodic hacc (m - 4))
  rw [hcore, hrest]

/-- The central algebraic fact: the scalar two-phase encoder satisfies
every lifted parity-check equation of a valid configuration. -/
theorem checkRow_scalar_eq_zeroB (q : srslte_ldpc_encoder_t) (hv : ValidConfig q)
    (inB : Nat → Blk) (m : Nat) (hm : m < q.bgM) :
    checkRow q (encodeBlocksW q inB (auxRow q inB) (extPar q (auxRow q inB))) m = zeroB := by
  have hacc : ∀ n, PeriodicB q.ls (auxRow q inB n) := fun n => auxRow_periodic q inB n
  have hS := @shiftB_coreShift_par0 q (auxRow q inB) (le_of_lt hv.coreShift_lt) hacc
  rw [checkRow_split q hv]
  by_cases hm4 : m < 4
  · rw [parityFold_core q hv inB (auxRow q inB) (extPar q (auxRow q inB)) m hm4]
    interval_cases m
    · rw [coreBlk_zero, coreBlk_one, coreBlk_two, coreBlk_three]
      simp only [pcmContrib, hv.c00, hv.c01, hv.c02, hv.c03]
      rw [hS, shiftB_zero_of_periodic (par1_periodic hacc)]
      unfold par1
      rw [hS]
      funext i
      simp only [xorB, zeroB, Bool.xor_assoc]
      simp [Bool.xor_comm, Bool.xor_left_comm]
    · rw [coreBlk_zero, coreBlk_one, coreBlk_two, coreBlk_three]
      simp only [pcmContrib, hv.c10, hv.c11, hv.c12, hv.c13]
      rw [shiftB_zero_of_periodic (par0_periodic q (auxRow q inB)),
        shiftB_zero_of_periodic (par1_periodic hacc),
        shiftB_zero_of_periodic (par2_periodic hacc)]
      unfold par2
      funext i
      simp only [xorB, zeroB, Bool.xor_assoc]
      simp [Bool.xor_comm, Bool.xor_left_comm]
    · rw [coreBlk_zero, coreBlk_one, coreBlk_two, coreBlk_three]
      simp only [pcmContrib, hv.c20, hv.c21, hv.c22, hv.c23]
      rw [shiftB_zero_of_periodic (par2_periodic hacc),
        shiftB_zero_of_periodic (par3_periodic hacc)]
      unfold par3
      funext i
      simp only [xorB, zeroB, Bool.xor_assoc]
      simp [Bool.xor_comm, Bool.xor_left_comm]
    · rw [coreBlk_zero, coreBlk_one, coreBlk_two, coreBlk_three]
      simp only [pcmContrib, hv.c30, hv.c31, hv.c32, hv.c33]
      rw [shiftB_zero_of_periodic (par0_periodic q (auxRow q inB)),
        shiftB_zero_of_periodic (par3_periodic hacc)]
      unfold par3 par2 par1
      rw [hS]
      unfold sumAux
      funext i
      simp only [xorB, zeroB, Bool.xor_assoc]
      simp [Bool.xor_comm, Bool.xor_left_comm]
  · rw [parityFold_ext q hv inB (auxRow q inB) hacc m (by omega) hm]
    unfold extPar
    have h44 : m - 4 + 4 = m := by omega
    rw [h44]
    funext i
    simp only [xorB, zeroB, Bool.xor_assoc]
    simp [Bool.xor_comm, Bool.xor_left_comm]

theorem xorFoldl_acc (l : List Nat) (f : Nat → Blk) (x : Blk) :
    l.foldl (fun acc j => xorB acc (f j)) x = xorB x (xorFold l f) := by
  induction l generalizing x with
  | nil => simp [xorFold, xorB_zeroB_right]
  | cons a t ih =>
      simp only [xorFold, List.foldl_cons, List.foldr_cons]
      rw [ih, xorB_assoc]
      rfl

/-- The wide left-fold accumulation order agrees with the scalar
right-fold order. -/
theorem xorFoldl_eq_xorFold (l : List Nat) (f : Nat → Blk) : xorFoldl l f = xorFold l f := by
  unfold xorFoldl
  rw [xorFoldl_acc, xorB_zeroB]

/-- Lane-at-a-time accumulation agrees with block-at-a-time
accumulation. -/
theorem xorFoldBit_eq (l : List Nat) (f : Nat → Blk) (i : Nat) :
    xorFoldBit l (fun j => f j i) = xorFold l f i := by
  induction l with
  | nil => rfl
  | cons a t ih =>
      simp only [xorFoldBit, xorFold, List.foldr_cons, xorB] at *
      rw [ih]

theorem auxRowAvx2_eq (q : srslte_ldpc_encoder_t) (inB : Nat → Blk) :
    auxRowAvx2 q inB = auxRow q inB := by
  funext m
  exact xorFoldl_eq_xorFold _ _

theorem auxRowAvx512_eq (q : srslte_ldpc_encoder_t) (inB : Nat → Blk) :
    auxRowAvx512 q inB = auxRow q inB := by
  funext m i
  exact xorFoldBit_eq _ _ i

theorem extParAvx2_eq (q : srslte_ldpc_encoder_t) (acc : Nat → Blk) :
    extParAvx2 q acc = extPar q acc := by
  funext t
  unfold extParAvx2 extPar
  rw [xorFoldl_eq_xorFold]

theorem extParAvx512_eq (q : srslte_ldpc_encoder_t) (acc : Nat → Blk) :
    extParAvx512 q acc = extPar q acc := by
  funext t i
  unfold extParAvx512 extPar
  simp only [xorB]
  rw [xorFoldBit_eq]

/-- The AVX2-style pipeline is bit-identical to the scalar pipeline. -/
theorem ldpc_enc_avx2_eq (q : srslte_ldpc_encoder_t) (input : List Bool) :
    ldpc_enc_avx2 q input = ldpc_enc_c q input := by
  unfold ldpc_enc_avx2 ldpc_enc_c
  rw [auxRowAvx2_eq, extParAvx2_eq]

/-- The AVX512-style pipeline is bit-identical to the scalar pipeline. -/
theorem ldpc_enc_avx512_eq (q : srslte_ldpc_encoder_t) (input : List Bool) :
    ldpc_enc_avx512 q input = ldpc_enc_c q input := by
  unfold ldpc_enc_avx512 ldpc_enc_c
  rw [auxRowAvx512_eq, extParAvx512_eq]

/-- Whatever backend the handle was constructed with, dispatch computes
the scalar pipeline's codeword. -/
theorem ldpc_enc_impl_eq_c (q : srslte_ldpc_encoder_t) (input : List Bool) :
    ldpc_enc_impl q input = ldpc_enc_c q input := by
  unfold ldpc_enc_impl
  cases q.type with
  | C => rfl
  | AVX2 => exact ldpc_enc_avx2_eq q input
  | AVX512 => exact ldpc_enc_avx512_eq q input

theorem cwList_length (q : srslte_ldpc_encoder_t) (blocks : Nat → Blk) :
    (cwList q blocks).length = q.liftN := by
  simp [cwList]

theorem cwList_getD (q : srslte_ldpc_encoder_t) (blocks : Nat → Blk) (n : Nat)
    (hn : n < q.liftN) : (cwList q blocks).getD n false = blocks (n / q.ls) (n % q.ls) := by
  unfold cwList
  have hlen : n < ((List.range q.liftN).map
      (fun n => blocks (n / q.ls) (n % q.ls))).length := by simpa
  rw [List.getD_eq_getElem _ _ hlen, List.getElem_map, List.getElem_range]

/-- Reading block `j`, lane `i` out of the serialized codeword recovers
the block map. -/
theorem cwList_block (q : srslte_ldpc_encoder_t) (blocks : Nat → Blk) (j i : Nat)
    (hpos : 0 < q.ls) (hj : j < q.bgN) (hi : i < q.ls) (hliftN : q.liftN = q.bgN * q.ls) :
    (cwList q blocks).getD (j * q.ls + i) false = blocks j i := by
  have hn : j * q.ls + i < q.liftN := by
    rw [hliftN]
    calc j * q.ls + i < j * q.ls + q.ls := by omega
    _ = (j + 1) * q.ls := by ring
    _ ≤ q.bgN * q.ls := Nat.mul_le_mul_right _ (by omega)
  rw [cwList_getD q blocks _ hn]
  have hcomm : j * q.ls + i = q.ls * j + i := by ring
  have hdiv : (j * q.ls + i) / q.ls = j := by
    rw [hcomm, Nat.mul_add_div hpos, Nat.div_eq_of_lt hi, Nat.add_zero]
  have hmod : (j * q.ls + i) % q.ls = i := by
    rw [hcomm, Nat.mul_add_mod, Nat.mod_eq_of_lt hi]
  rw [hdiv, hmod]

/-- The first `liftK` bits of the serialized codeword are the input bits
whenever the block map restricts to the message blocks on the
systematic block-columns. -/
theorem cwList_take_liftK (q : srslte_ldpc_encoder_t) (input : List Bool) (blocks : Nat → Blk)
    (hpos : 0 < q.ls) (hK : q.liftK = q.bgK * q.ls) (hKN : q.liftK ≤ q.liftN)
    (hlen : input.length = q.liftK)
    (hblocks : ∀ j < q.bgK, blocks j = msgB q input j) :
    (cwList q blocks).take q.liftK = input := by
  apply List.ext_getElem
  · rw [List.length_take, cwList_length, hlen]
    omega
  · intro n h1 h2
    have hnK : n < q.liftK := by
      rw [List.length_take, cwList_length] at h1
      omega
    have hncw : n < (cwList q blocks).length := by
      rw [cwList_length]
      omega
    rw [List.getElem_take]
    rw [← List.getD_eq_getElem (cwList q blocks) false hncw]
    rw [cwList_getD q blocks n (by omega)]
    have hjK : n / q.ls < q.bgK := by
      apply Nat.div_lt_of_lt_mul
      rw [Nat.mul_comm]
      omega
    rw [hblocks _ hjK]
    unfold msgB
    rw [Nat.mod_mod_of_dvd _ dvd_rfl]
    have hn : n / q.ls * q.ls + n % q.ls = n := by
      rw [Nat.mul_comm]
      exact Nat.div_add_mod n q.ls
    rw [hn]
    exact List.getD_eq_getElem input false h2

theorem circRead_length (cw : List Bool) (n : Nat) : ∀ pos, (circRead cw pos n).length = n := by
  induction n with
  | zero => intro pos; rfl
  | succ n ih =>
      intro pos
      simp only [circRead, List.length_cons, ih]

/-- Closed form of the circular read-out: output bit `k` is codeword bit
`(pos + k) % length`. -/
theorem circRead_getD (cw : List Bool) (n : Nat) :
    ∀ pos k, pos < cw.length → k < n →
      (circRead cw pos n).getD k false = cw.getD ((pos + k) % cw.length) false := by
  induction n with
  | zero => intro pos k _ hk; omega
  | succ n ih =>
      intro pos k hpos hk
      cases k with
      | zero =>
          simp only [circRead, List.getD_cons_zero, Nat.add_zero,
            Nat.mod_eq_of_lt hpos]
      | succ k =>
          simp only [circRead, List.getD_cons_succ]
          by_cases he : pos + 1 = cw.length
          · rw [if_pos he, ih 0 k (by omega) (by omega)]
            have h1 : (0 + k) % cw.length = k % cw.length := by rw [Nat.zero_add]
            have h2 : pos + (k + 1) = cw.length + k := by omega
            rw [h1, h2, Nat.add_mod_left]
          · rw [if_neg he, ih (pos + 1) k (by omega) (by omega)]
            have h3 : pos + 1 + k = pos + (k + 1) := by omega
            rw [h3]

/-- Emitting fewer bits of the circular read-out is truncation: the
read-out of length `m` is the first `m` bits of any longer read-out. -/
theorem circRead_take (cw : List Bool) (m : Nat) :
    ∀ n pos, m ≤ n → (circRead cw pos n).take m = circRead cw pos m := by
  induction m with
  | zero => intro n pos _; rfl
  | succ m ih =>
      intro n pos hmn
      cases n with
      | zero => omega
      | succ n =>
          simp only [circRead, List.take_succ_cons]
          rw [ih n _ (by omega)]

/-- Success inversion for `srslte_ldpc_encoder_encode`: the input length
matched `liftK` and the output is the dispatched pipeline's codeword. -/
theorem encode_ok_elim {q : srslte_ldpc_encoder_t} {input : List Bool} {len : Nat}
    {out : List Bool} (h : srslte_ldpc_encoder_encode q input len = .ok out) :
    len = q.liftK ∧ out = ldpc_enc_impl q input := by
  unfold srslte_ldpc_encoder_encode srslte_ldpc_encoder_encode_st at h
  by_cases hl : len = q.liftK
  · rw [if_pos hl] at h
    simp only [Except.map] at h
    exact ⟨hl, (Except.ok.inj h).symm⟩
  · rw [if_neg hl] at h
    simp [Except.map] at h

/-- Success inversion for `srslte_ldpc_encoder_encode_rm`. -/
theorem encode_rm_ok_elim {q : srslte_ldpc_encoder_t} {input : List Bool}
    {len rml : Nat} {out : List Bool}
    (h : srslte_ldpc_encoder_encode_rm q input len rml = .ok out) :
    rml ≠ 0 ∧ len = q.liftK ∧ out = circRead (ldpc_enc_impl q input) (2 * q.ls) rml := by
  unfold srslte_ldpc_encoder_encode_rm srslte_ldpc_encoder_encode_rm_st
    srslte_ldpc_encoder_encode_st at h
  by_cases hrml : rml = 0
  · rw [if_pos hrml] at h
    simp [Except.map] at h
  · rw [if_neg hrml] at h
    by_cases hl : len = q.liftK
    · rw [if_pos hl] at h
      simp only [Except.map] at h
      exact ⟨hrml, hl, (Except.ok.inj h).symm⟩
    · rw [if_neg hl] at h
      simp [Except.map] at h

/-- The concrete BG2 handle is a valid configuration. -/
theorem testQ_valid : ValidConfig testQ := by
  constructor <;> decide

/-- Two block maps agreeing on all in-range lanes of all block-columns
give identical parity-check bits on in-range lanes. -/
theorem checkRow_congr_at (q : srslte_ldpc_encoder_t) (hpos : 0 < q.ls)
    {f g : Nat → Blk} {m i : Nat}
    (hfg : ∀ j < q.bgN, ∀ i' < q.ls, f j i' = g j i') :
    checkRow q f m i = checkRow q g m i := by
  unfold checkRow
  apply xorFold_congr_at
  intro j hj
  have hjN : j < q.bgN := by simpa using hj
  unfold pcmContrib
  cases hjm : q.pcm m j with
  | none => rfl
  | some s =>
      simp only [shiftB]
      exact hfg j hjN _ (Nat.mod_lt _ hpos)

/-- Every standardized lifting size is at most 384. -/
theorem ls_le_384 {ls : Nat} (h : ls ∈ SRSLTE_LDPC_LS) : ls ≤ 384 := by
  have hall : ∀ x ∈ SRSLTE_LDPC_LS, x ≤ 384 := by decide
  exact hall ls h

/-- Success inversion for `srslte_ldpc_encoder_init`: the lifting size
was standardized and the handle is the built one. -/
theorem init_ok_elim {cat : BgCatalog} {t : srslte_ldpc_encoder_type_t}
    {bg : srslte_basegraph_t} {ls : Nat} {q : srslte_ldpc_encoder_t}
    (h : srslte_ldpc_encoder_init cat t bg ls = .ok q) :
    ls ∈ SRSLTE_LDPC_LS ∧ q = initHandle cat t bg ls := by
  unfold srslte_ldpc_encoder_init at h
  by_cases hc : SRSLTE_LDPC_LS.contains ls
  · rw [if_pos hc] at h
    exact ⟨List.elem_iff.mp hc, (Except.ok.inj h).symm⟩
  · rw [if_neg hc] at h
    simp at h

/-- C1: for every valid encoder configuration (base graph, standardized
lifting size) and every input message of `liftK` bits, the codeword
returned by `srslte_ldpc_encoder_encode` satisfies every lifted
parity-check equation: each check block-row's XOR-sum of cyclically
shifted codeword block-columns, per the compact PCM, is the all-zero
length-`ls` vector. -/
theorem claim_C1_parity_check (q : srslte_ldpc_encoder_t) (hv : ValidConfig q)
    (input : List Bool) (hlen : input.length = q.liftK) (out : List Bool)
    (hok : srslte_ldpc_encoder_encode q input q.liftK = .ok out) :
    ∀ m < q.bgM, ∀ i < q.ls,
      checkRow q (fun j i' => out.getD (j * q.ls + i') false) m i = false := by
  obtain ⟨-, hout⟩ := encode_ok_elim hok
  intro m hm i hi
  have h1 : checkRow q (fun j i' => out.getD (j * q.ls + i') false) m i
      = checkRow q (encodeBlocksW q (msgB q input) (auxRow q (msgB q input))
          (extPar q (auxRow q (msgB q input)))) m i := by
    apply checkRow_congr_at q hv.ls_pos
    intro j hj i' hi'
    rw [hout, ldpc_enc_impl_eq_c]
    exact cwList_block q _ j i' hv.ls_pos hj hi' hv.hliftN
  rw [h1, checkRow_scalar_eq_zeroB q hv (msgB q input) m hm]
  rfl

/-- C1 witness: the theorem applied to the concrete BG2 configuration
and message, at check block-row 5, lane 0. -/
theorem claim_C1_parity_check_witness :
    testInput.length = testQ.liftK ∧
    checkRow testQ
      (fun j i' => (ldpc_enc_impl testQ testInput).getD (j * testQ.ls + i') false) 5 0
      = false :=
  ⟨by decide,
   claim_C1_parity_check testQ testQ_valid testInput (by decide)
     (ldpc_enc_impl testQ testInput) rfl 5 (by decide) 0 (by decide)⟩

/-- C2: for every valid encoder configuration and every input message of
`liftK` bits, the first `liftK` bits of the codeword returned by
`srslte_ldpc_encoder_encode` equal the input bits exactly, and the total
output length is `liftN` bits. -/
theorem claim_C2_systematic (q : srslte_ldpc_encoder_t) (hv : ValidConfig q)
    (input : List Bool) (hlen : input.length = q.liftK) (out : List Bool)
    (hok : srslte_ldpc_encoder_encode q input q.liftK = .ok out) :
    out.take q.liftK = input ∧ out.length = q.liftN := by
  obtain ⟨-, hout⟩ := encode_ok_elim hok
  rw [hout, ldpc_enc_impl_eq_c]
  unfold ldpc_enc_c
  constructor
  · apply cwList_take_liftK q input _ hv.ls_pos hv.hliftK ?_ hlen ?_
    · rw [hv.hliftK, hv.hliftN, hv.hN]
      exact Nat.mul_le_mul_right q.ls (by omega)
    · intro j hj
      exact encodeBlocksW_msg hj
  · exact cwList_length q _

/-- C2 witness: the theorem applied to the concrete BG2 configuration
and message. -/
theorem claim_C2_systematic_witness :
    testInput.length = testQ.liftK ∧
    (ldpc_enc_impl testQ testInput).take testQ.liftK = testInput ∧
    (ldpc_enc_impl testQ testInput).length = testQ.liftN :=
  ⟨by decide,
   (claim_C2_systematic testQ testQ_valid testInput (by decide)
     (ldpc_enc_impl testQ testInput) rfl).1,
   (claim_C2_systematic testQ testQ_valid testInput (by decide)
     (ldpc_enc_impl testQ testInput) rfl).2⟩

/-- C3: for every fixed encoder configuration and every fixed input
message, all backend variants (scalar, AVX2, AVX512) produce bit-for-bit
identical output codewords, and dispatch through handles differing only
in the stored backend binding is output-invariant. -/
theorem claim_C3_backend_equivalence (q : srslte_ldpc_encoder_t) (input : List Bool)
    (t1 t2 : srslte_ldpc_encoder_type_t) :
    ldpc_enc_c q input = ldpc_enc_avx2 q input ∧
    ldpc_enc_c q input = ldpc_enc_avx512 q input ∧
    ldpc_enc_impl { q with type := t1 } input = ldpc_enc_impl { q with type := t2 } input := by
  refine ⟨(ldpc_enc_avx2_eq q input).symm, (ldpc_enc_avx512_eq q input).symm, ?_⟩
  rw [ldpc_enc_impl_eq_c, ldpc_enc_impl_eq_c]
  rfl

/-- C4: for every valid configuration, `liftK`-bit input and nonzero
rate-matched length, the rate-matched output bit at index `k` equals the
full codeword bit at position `(2·ls + k) % liftN`, for all
`k < cdwd_rm_length` (in particular the output wraps past
`liftN − 2·ls` and repeats bits from position 0). -/
theorem claim_C4_rate_match_readout (q : srslte_ldpc_encoder_t) (hv : ValidConfig q)
    (input : List Bool) (hlen : input.length = q.liftK) (rml : Nat)
    (out cw : List Bool)
    (hok : srslte_ldpc_encoder_encode_rm q input q.liftK rml = .ok out)
    (hcw : srslte_ldpc_encoder_encode q input q.liftK = .ok cw) :
    out.length = rml ∧
    ∀ k < rml, out.getD k false = cw.getD ((2 * q.ls + k) % q.liftN) false := by
  obtain ⟨hrml, -, hout⟩ := encode_rm_ok_elim hok
  obtain ⟨-, hcw'⟩ := encode_ok_elim hcw
  have hlen2 : (ldpc_enc_impl q input).length = q.liftN := by
    rw [ldpc_enc_impl_eq_c]
    unfold ldpc_enc_c
    exact cwList_length q _
  constructor
  · rw [hout]
    exact circRead_length _ _ _
  · intro k hk
    have h2ls : 2 * q.ls < q.liftN := by
      have h3 : 2 < q.bgN := by
        rcases hv.dims with ⟨-, -, h⟩ | ⟨-, -, h⟩ <;> omega
      rw [hv.hliftN]
      exact Nat.mul_lt_mul_of_lt_of_le h3 (le_refl q.ls) hv.ls_pos
    rw [hout, hcw']
    rw [circRead_getD _ _ _ k (by omega) hk]
    rw [hlen2]

/-- C4 witness: the concrete BG2 configuration with rate-matched length
110 > liftN − 2·ls = 100, exercising the wrap, evaluated at output
index 105. -/
theorem claim_C4_rate_match_readout_witness :
    testInput.length = testQ.liftK ∧
    (circRead (ldpc_enc_impl testQ testInput) (2 * testQ.ls) 110).length = 110 ∧
    (circRead (ldpc_enc_impl testQ testInput) (2 * testQ.ls) 110).getD 105 false
      = (ldpc_enc_impl testQ testInput).getD ((2 * testQ.ls + 105) % testQ.liftN) false :=
  ⟨by decide,
   (claim_C4_rate_match_readout testQ testQ_valid testInput (by decide) 110
     (circRead (ldpc_enc_impl testQ testInput) (2 * testQ.ls) 110)
     (ldpc_enc_impl testQ testInput) rfl rfl).1,
   (claim_C4_rate_match_readout testQ testQ_valid testInput (by decide) 110
     (circRead (ldpc_enc_impl testQ testInput) (2 * testQ.ls) 110)
     (ldpc_enc_impl testQ testInput) rfl rfl).2 105 (by decide)⟩

/-- C5: for every valid configuration, `liftK`-bit input and lengths
`len1 ≤ len2 ≤ liftN − 2·ls`, the rate-matched output of length `len1`
is exactly the first `len1` bits of the rate-matched output of length
`len2` on the same input. -/
theorem claim_C5_rm_truncation (q : srslte_ldpc_encoder_t) (hv : ValidConfig q)
    (input : List Bool) (len1 len2 : Nat) (h1 : 0 < len1) (h12 : len1 ≤ len2)
    (h2 : len2 ≤ q.liftN - 2 * q.ls) (out1 out2 : List Bool)
    (hok1 : srslte_ldpc_encoder_encode_rm q input q.liftK len1 = .ok out1)
    (hok2 : srslte_ldpc_encoder_encode_rm q input q.liftK len2 = .ok out2) :
    out1 = out2.take len1 := by
  obtain ⟨-, -, ho1⟩ := encode_rm_ok_elim hok1
  obtain ⟨-, -, ho2⟩ := encode_rm_ok_elim hok2
  rw [ho1, ho2, circRead_take _ len1 len2 _ h12]

/-- C5 witness: lengths 40 ≤ 100 = liftN − 2·ls on the concrete BG2
configuration. -/
theorem claim_C5_rm_truncation_witness :
    (0 < 40 ∧ 40 ≤ 100 ∧ 100 ≤ testQ.liftN - 2 * testQ.ls) ∧
    circRead (ldpc_enc_impl testQ testInput) (2 * testQ.ls) 40
      = (circRead (ldpc_enc_impl testQ testInput) (2 * testQ.ls) 100).take 40 :=
  ⟨⟨by decide, by decide, by decide⟩,
   claim_C5_rm_truncation testQ testQ_valid testInput 40 100 (by decide) (by decide)
     (by decide)
     (circRead (ldpc_enc_impl testQ testInput) (2 * testQ.ls) 40)
     (circRead (ldpc_enc_impl testQ testInput) (2 * testQ.ls) 100) rfl rfl⟩

/-- C6: initialization with a lifting size outside the standardized
51-value set fails with `UnsupportedLiftingSize`, the C boundary reports
−1, and the caller's handle state is left untouched (an uninitialized
handle remains uninitialized). -/
theorem claim_C6_reject_lifting_size (cat : BgCatalog) (t : srslte_ldpc_encoder_type_t)
    (bg : srslte_basegraph_t) (ls : Nat) (q0 : Option srslte_ldpc_encoder_t)
    (h : ls ∉ SRSLTE_LDPC_LS) :
    srslte_ldpc_encoder_init cat t bg ls = .error .unsupportedLiftingSize ∧
    srslte_ldpc_encoder_init_c_api cat q0 t bg ls = (-1, q0) := by
  have hc : ¬ (SRSLTE_LDPC_LS.contains ls = true) := fun hcont => h (List.elem_iff.mp hcont)
  constructor
  · unfold srslte_ldpc_encoder_init
    rw [if_neg hc]
  · unfold srslte_ldpc_encoder_init_c_api srslte_ldpc_encoder_init
    rw [if_neg hc]

/-- C6 witness: lifting size 1 is not standardized; initialization on an
uninitialized handle fails and leaves it uninitialized. -/
theorem claim_C6_reject_lifting_size_witness :
    (1 ∉ SRSLTE_LDPC_LS) ∧
    srslte_ldpc_encoder_init testCat .C .BG1 1 = .error .unsupportedLiftingSize ∧
    srslte_ldpc_encoder_init_c_api testCat none .C .BG1 1 = (-1, none) :=
  ⟨by decide,
   (claim_C6_reject_lifting_size testCat .C .BG1 1 none (by decide)).1,
   (claim_C6_reject_lifting_size testCat .C .BG1 1 none (by decide)).2⟩

/-- C7: for every handle and every input whose declared length differs
from `liftK`, encode fails with `InvalidInputLength` and returns no
codeword at all: the result is an error carrying no bits, and the C
boundary returns −1 with no output. -/
theorem claim_C7_invalid_input_length (q : srslte_ldpc_encoder_t) (input : List Bool)
    (len : Nat) (h : len ≠ q.liftK) :
    srslte_ldpc_encoder_encode q input len = .error .invalidInputLength ∧
    srslte_ldpc_encoder_encode_st q input len = .error .invalidInputLength ∧
    srslte_ldpc_encoder_encode_c_api q input len = (-1, none) := by
  have h2 : srslte_ldpc_encoder_encode_st q input len = .error .invalidInputLength := by
    unfold srslte_ldpc_encoder_encode_st
    rw [if_neg h]
  refine ⟨?_, h2, ?_⟩
  · unfold srslte_ldpc_encoder_encode
    rw [h2]
    rfl
  · unfold srslte_ldpc_encoder_encode_c_api srslte_ldpc_encoder_encode
    rw [h2]
    rfl

/-- C7 witness: declared input length 0 on the concrete BG2 handle
(liftK = 20). -/
theorem claim_C7_invalid_input_length_witness :
    (0 ≠ testQ.liftK) ∧
    srslte_ldpc_encoder_encode testQ testInput 0 = .error .invalidInputLength ∧
    srslte_ldpc_encoder_encode_c_api testQ testInput 0 = (-1, none) :=
  ⟨by decide,
   (claim_C7_invalid_input_length testQ testInput 0 (by decide)).1,
   (claim_C7_invalid_input_length testQ testInput 0 (by decide)).2.2⟩

/-- C8: every successful init establishes the configuration fields of
the handle (base graph, lifting size, base and lifted dimensions with
`bgN = bgK + bgM` and `lift· = bg· · ls`, and the compact PCM whose
lifted entries are the base shift values reduced modulo `ls` with the
"no edge" sentinel preserved), and every subsequent encode / encode_rm
call returns the handle with all of these fields unchanged, rewriting
only the private scratch registers. -/
theorem claim_C8_config_frame (cat : BgCatalog) (t : srslte_ldpc_encoder_type_t)
    (bg : srslte_basegraph_t) (ls : Nat) (q : srslte_ldpc_encoder_t)
    (hinit : srslte_ldpc_encoder_init cat t bg ls = .ok q) :
    (q.bg = bg ∧ q.ls = ls ∧ q.bgK = BG_K bg ∧ q.bgM = BG_M bg ∧ q.bgN = BG_N bg ∧
     q.bgN = q.bgK + q.bgM ∧ q.liftK = q.bgK * q.ls ∧ q.liftM = q.bgM * q.ls ∧
     q.liftN = q.bgN * q.ls ∧
     ∀ m j, q.pcm m j = (cat bg ls m j).map (fun v => v % ls)) ∧
    (∀ input len q' out, srslte_ldpc_encoder_encode_st q input len = .ok (q', out) →
      q'.type = q.type ∧ q'.bg = q.bg ∧ q'.ls = q.ls ∧ q'.bgN = q.bgN ∧
      q'.liftN = q.liftN ∧ q'.bgM = q.bgM ∧ q'.liftM = q.liftM ∧ q'.bgK = q.bgK ∧
      q'.liftK = q.liftK ∧ q'.pcm = q.pcm) ∧
    (∀ input len rml q' out,
      srslte_ldpc_encoder_encode_rm_st q input len rml = .ok (q', out) →
      q'.type = q.type ∧ q'.bg = q.bg ∧ q'.ls = q.ls ∧ q'.bgN = q.bgN ∧
      q'.liftN = q.liftN ∧ q'.bgM = q.bgM ∧ q'.liftM = q.liftM ∧ q'.bgK = q.bgK ∧
      q'.liftK = q.liftK ∧ q'.pcm = q.pcm) := by
  obtain ⟨hls, hq⟩ := init_ok_elim hinit
  subst hq
  have hb := ls_le_384 hls
  refine ⟨⟨rfl, rfl, ?_, ?_, ?_, ?_, ?_, ?_, ?_, fun m j => rfl⟩, ?_, ?_⟩
  · show BG_K bg % 256 = BG_K bg
    cases bg <;> decide
  · show BG_M bg % 256 = BG_M bg
    cases bg <;> decide
  · show BG_N bg % 256 = BG_N bg
    cases bg <;> decide
  · show BG_N bg % 256 = BG_K bg % 256 + BG_M bg % 256
    cases bg <;> decide
  · show (BG_K bg * ls) % 65536 = BG_K bg % 256 * ls
    cases bg <;> (simp only [BG_K]; omega)
  · show (BG_M bg * ls) % 65536 = BG_M bg % 256 * ls
    cases bg <;> (simp only [BG_M]; omega)
  · show (BG_N bg * ls) % 65536 = BG_N bg % 256 * ls
    cases bg <;> (simp only [BG_N]; omega)
  · intro input len q' out h
    unfold srslte_ldpc_encoder_encode_st at h
    by_cases hl : len = (initHandle cat t bg ls).liftK
    · rw [if_pos hl] at h
      have hpair := Except.ok.inj h
      rw [Prod.mk.injEq] at hpair
      obtain ⟨hq', -⟩ := hpair
      subst hq'
      exact ⟨rfl, rfl, rfl, rfl, rfl, rfl, rfl, rfl, rfl, rfl⟩
    · rw [if_neg hl] at h
      simp at h
  · intro input len rml q' out h
    unfold srslte_ldpc_encoder_encode_rm_st at h
    by_cases hr : rml = 0
    · rw [if_pos hr] at h
      simp at h
    · rw [if_neg hr] at h
      unfold srslte_ldpc_encoder_encode_st at h
      by_cases hl : len = (initHandle cat t bg ls).liftK
      · rw [if_pos hl] at h
        simp only [Except.map] at h
        have hpair := Except.ok.inj h
        rw [Prod.mk.injEq] at hpair
        obtain ⟨hq', -⟩ := hpair
        subst hq'
        exact ⟨rfl, rfl, rfl, rfl, rfl, rfl, rfl, rfl, rfl, rfl⟩
      · rw [if_neg hl] at h
        simp [Except.map] at h

/-- C8 witness: a successful init on the concrete catalog, a successful
encode on the resulting handle, and the preserved PCM. -/
theorem claim_C8_config_frame_witness :
    srslte_ldpc_encoder_init testCat .C .BG2 2 = .ok testQ ∧
    testQ.liftK = testQ.bgK * testQ.ls ∧
    srslte_ldpc_encoder_encode_st testQ testInput testQ.liftK
      = .ok ({ testQ with ptr := scratchOf testQ testInput }, ldpc_enc_impl testQ testInput) ∧
    ({ testQ with ptr := scratchOf testQ testInput } : srslte_ldpc_encoder_t).pcm
      = testQ.pcm :=
  ⟨rfl,
   ((claim_C8_config_frame testCat .C .BG2 2 testQ rfl).1).2.2.2.2.2.2.1,
   rfl,
   ((claim_C8_config_frame testCat .C .BG2 2 testQ rfl).2.1 testInput testQ.liftK
     { testQ with ptr := scratchOf testQ testInput } (ldpc_enc_impl testQ testInput)
     rfl).2.2.2.2.2.2.2.2.2⟩

/-- C9: at the C interface, init, encode and encode_rm each return
exactly 0 on success and −1 on every failure: a successful call returns
0 (with the produced handle or codeword), a failing call returns −1
whatever the error kind, so the spec's distinct error kinds are not
distinguishable from the return value alone; in particular any two
failing calls return the same integer. -/
theorem claim_C9_return_codes :
    (∀ cat q0 t bg ls q',
      srslte_ldpc_encoder_init cat t bg ls = .ok q' →
      srslte_ldpc_encoder_init_c_api cat q0 t bg ls = (0, some q')) ∧
    (∀ cat q0 t bg ls e,
      srslte_ldpc_encoder_init cat t bg ls = .error e →
      (srslte_ldpc_encoder_init_c_api cat q0 t bg ls).1 = -1) ∧
    (∀ q input len out,
      srslte_ldpc_encoder_encode q input len = .ok out →
      srslte_ldpc_encoder_encode_c_api q input len = (0, some out)) ∧
    (∀ q input len e,
      srslte_ldpc_encoder_encode q input len = .error e →
      (srslte_ldpc_encoder_encode_c_api q input len).1 = -1) ∧
    (∀ q input len rml out,
      srslte_ldpc_encoder_encode_rm q input len rml = .ok out →
      srslte_ldpc_encoder_encode_rm_c_api q input len rml = (0, some out)) ∧
    (∀ q input len rml e,
      srslte_ldpc_encoder_encode_rm q input len rml = .error e →
      (srslte_ldpc_encoder_encode_rm_c_api q input len rml).1 = -1) ∧
    (∀ cat q0 t bg ls q input len e1 e2,
      srslte_ldpc_encoder_init cat t bg ls = .error e1 →
      srslte_ldpc_encoder_encode q input len = .error e2 →
      (srslte_ldpc_encoder_init_c_api cat q0 t bg ls).1
        = (srslte_ldpc_encoder_encode_c_api q input len).1) := by
  refine ⟨?_, ?_, ?_, ?_, ?_, ?_, ?_⟩
  · intro cat q0 t bg ls q' h
    unfold srslte_ldpc_encoder_init_c_api
    rw [h]
  · intro cat q0 t bg ls e h
    unfold srslte_ldpc_encoder_init_c_api
    rw [h]
  · intro q input len out h
    unfold srslte_ldpc_encoder_encode_c_api
    rw [h]
  · intro q input len e h
    unfold srslte_ldpc_encoder_encode_c_api
    rw [h]
  · intro q input len rml out h
    unfold srslte_ldpc_encoder_encode_rm_c_api
    rw [h]
  · intro q input len rml e h
    unfold srslte_ldpc_encoder_encode_rm_c_api
    rw [h]
  · intro cat q0 t bg ls q input len e1 e2 h1 h2
    unfold srslte_ldpc_encoder_init_c_api srslte_ldpc_encoder_encode_c_api
    rw [h1, h2]

/-- C9 witness: a successful init returns 0 with the built handle, a
failing encode (declared length 0) returns −1, and a failing init
(unsupported lifting size 1) returns the same integer as the failing
encode despite the different error kind. -/
theorem claim_C9_return_codes_witness :
    srslte_ldpc_encoder_init_c_api testCat none .C .BG2 2 = (0, some testQ) ∧
    (srslte_ldpc_encoder_encode_c_api testQ testInput 0).1 = -1 ∧
    (srslte_ldpc_encoder_init_c_api testCat none .C .BG1 1).1
      = (srslte_ldpc_encoder_encode_c_api testQ testInput 0).1 :=
  ⟨claim_C9_return_codes.1 testCat none .C .BG2 2 testQ rfl,
   claim_C9_return_codes.2.2.2.1 testQ testInput 0 .invalidInputLength rfl,
   claim_C9_return_codes.2.2.2.2.2.2 testCat none .C .BG1 1 testQ testInput 0
     .unsupportedLiftingSize .invalidInputLength rfl rfl⟩

/-- C10: for every supported configuration the lifted dimensions fit
the declared 16-bit fields without wraparound (`liftN ≤ 68·384 = 26112 <
2^16`, likewise `liftK`, `liftM`) and the base-graph dimensions fit
8-bit fields, so no stored dimension is reduced modulo 2^8 or 2^16. -/
theorem claim_C10_dims_no_overflow (bg : srslte_basegraph_t) (ls : Nat)
    (h : ls ∈ SRSLTE_LDPC_LS) :
    BG_N bg * ls ≤ 26112 ∧
    (BG_K bg * ls) % 65536 = BG_K bg * ls ∧
    (BG_M bg * ls) % 65536 = BG_M bg * ls ∧
    (BG_N bg * ls) % 65536 = BG_N bg * ls ∧
    BG_K bg % 256 = BG_K bg ∧ BG_M bg % 256 = BG_M bg ∧ BG_N bg % 256 = BG_N bg ∧
    (∀ cat t q, srslte_ldpc_encoder_init cat t bg ls = .ok q →
      q.bgK = BG_K bg ∧ q.bgM = BG_M bg ∧ q.bgN = BG_N bg ∧
      q.liftK = BG_K bg * ls ∧ q.liftM = BG_M bg * ls ∧ q.liftN = BG_N bg * ls) := by
  have hb := ls_le_384 h
  refine ⟨?_, ?_, ?_, ?_, ?_, ?_, ?_, ?_⟩
  · cases bg <;> (simp only [BG_N]; omega)
  · cases bg <;> (simp only [BG_K]; omega)
  · cases bg <;> (simp only [BG_M]; omega)
  · cases bg <;> (simp only [BG_N]; omega)
  · cases bg <;> decide
  · cases bg <;> decide
  · cases bg <;> decide
  · intro cat t q hinit
    obtain ⟨-, hq⟩ := init_ok_elim hinit
    subst hq
    refine ⟨?_, ?_, ?_, ?_, ?_, ?_⟩
    · show BG_K bg % 256 = BG_K bg
      cases bg <;> decide
    · show BG_M bg % 256 = BG_M bg
      cases bg <;> decide
    · show BG_N bg % 256 = BG_N bg
      cases bg <;> decide
    · show (BG_K bg * ls) % 65536 = BG_K bg * ls
      cases bg <;> (simp only [BG_K]; omega)
    · show (BG_M bg * ls) % 65536 = BG_M bg * ls
      cases bg <;> (simp only [BG_M]; omega)
    · show (BG_N bg * ls) % 65536 = BG_N bg * ls
      cases bg <;> (simp only [BG_N]; omega)

/-- C10 witness: the extreme supported case BG1 with lifting size 384
reaches liftN = 26112 exactly, with no wraparound in any stored field. -/
theorem claim_C10_dims_no_overflow_witness :
    (384 ∈ SRSLTE_LDPC_LS) ∧
    BG_N srslte_basegraph_t.BG1 * 384 ≤ 26112 ∧
    (initHandle testCat .C .BG1 384).liftN = BG_N srslte_basegraph_t.BG1 * 384 :=
  ⟨by decide,
   (claim_C10_dims_no_overflow .BG1 384 (by decide)).1,
   ((claim_C10_dims_no_overflow .BG1 384 (by decide)).2.2.2.2.2.2.2 testCat .C
     (initHandle testCat .C .BG1 384) rfl).2.2.2.2.2⟩
